import Mathlib

/-!
# Verification of the tag-delimited, range-claiming record scanner

Shallow embedding of `XmlFileSource.tag_iterator` from
`src/tools/nl_api/custom_sources.py`.  A file is a `List Char`; the
not-quite-filelike stream of `_iterable_gcs` is modelled by reading one
newline-terminated chunk at a time from the remaining suffix, while the
absolute byte position (`f.tell()`) is carried alongside.  The range
tracker is the external `apache_beam` collaborator, modelled from the
spec's §4.2 contract.  The scanner itself is a fuel-indexed function
(fuel bounds the number of `readline` calls; `length + 1` always
suffices), returning the list of observable events (claims and emitted
records) together with the reason the iterator stopped.
-/

namespace XmlSrc

abbrev Line := List Char

/-- `readline` on the remaining suffix: everything up to and including the
first newline, or the whole rest of the file when no newline remains.
Mirrors `f.readline()` in `_iterable_gcs`. -/
def takeLine : List Char → List Char
  | [] => []
  | ch :: cs => if ch = '\n' then ['\n'] else ch :: takeLine cs

/-- All lines of a suffix, fuel-indexed (each line consumes at least one
character, so fuel `s.length` suffices). -/
def linesOfF : Nat → List Char → List Line
  | 0, _ => []
  | _ + 1, [] => []
  | f + 1, ch :: cs =>
      takeLine (ch :: cs) :: linesOfF f ((ch :: cs).drop (takeLine (ch :: cs)).length)

/-- The sequence of lines `readline` produces from a suffix. -/
def linesOf (s : List Char) : List Line := linesOfF s.length s

/-- The line read when the cursor sits at byte `p` of `file`. -/
def lineAt (file : List Char) (p : Nat) : List Char := takeLine (file.drop p)

/-- Python's substring test `pat in line` on strings, as used for
`self.open_tag in line` and `self.close_tag in line`. -/
def containsSub (pat s : List Char) : Bool := decide (pat <:+: s)

/-- Python's `x or 0` on an optional byte offset: `None` and `0` are both
falsy and give `0`. -/
def pyOr : Option Nat → Nat
  | none => 0
  | some n => if n = 0 then 0 else n

/-- Modelled from the spec: the `RangeTracker` collaborator (§4.2).  The
`apache_beam` offset range tracker consumed by `tag_iterator` is not part
of this repository; the spec states that a claim succeeds iff the position
lies in `[start_position, stop_position)` and is at least every previously
claimed position, and on failure makes no state change. -/
structure Tracker where
  startPosition : Option Nat
  stopPosition : Nat
  lastClaim : Option Nat
deriving DecidableEq

/-- The lower bound of the tracker's range, with `None` read as `0`. -/
def Tracker.startD (t : Tracker) : Nat := pyOr t.startPosition

/-- Modelled from the spec: whether a claim at `p` succeeds (§4.2). -/
def Tracker.accepts (t : Tracker) (p : Nat) : Bool :=
  decide (t.startD ≤ p) && decide (p < t.stopPosition) &&
    (match t.lastClaim with
     | none => true
     | some q => decide (q ≤ p))

/-- Modelled from the spec: `try_claim` (§4.2).  Returns the outcome and
the tracker state afterwards (unchanged on failure). -/
def Tracker.tryClaim (t : Tracker) (p : Nat) : Bool × Tracker :=
  if t.accepts p then (true, { t with lastClaim := some p }) else (false, t)

/-- The scanner's observable events: each `try_claim` call with its
argument and outcome, and each emitted record (kept as its list of
lines; the yielded string is their concatenation). -/
inductive Event where
  | claim : Nat → Bool → Event
  | emit : List Line → Event
deriving DecidableEq

/-- Why the iterator stopped.  `raise StopIteration()` inside the
generator ends the record sequence cleanly; `endOfInput` covers both
exhausting the file and the fall-through from an unclosed record, and
`claimFailed` the failed `try_claim`.  `fuelOut` is never reached with
adequate fuel. -/
inductive StopReason where
  | endOfInput : StopReason
  | claimFailed : StopReason
  | fuelOut : StopReason
deriving DecidableEq

/-- The scanner's control state: looking for an open tag, or collecting
lines of a record (`content` in the Python). -/
inductive Mode where
  | seekingOpen : Mode
  | seekingClose : List Line → Mode
deriving DecidableEq

/-- One pass of `tag_iterator`'s loops over the remaining suffix `s`,
whose first character sits at absolute byte position `p`.

* `seekingOpen` is the first `for line in iterable_f` loop: read a line;
  if it contains `open_tag`, call `try_claim(current_pos)` (the position
  before the line) and on success start collecting with `content = [line]`,
  on failure stop; a line without the marker just advances `current_pos`.
  End of input stops the iterator (`for ... else: raise StopIteration`).
* `seekingClose` is the second loop: append the line to `content`; if it
  contains `close_tag`, emit `''.join(content)` and return to seeking an
  open tag.  End of input here falls back to the outer loop, which
  immediately exhausts: the partial record is dropped and the iterator
  ends cleanly. -/
def scanF (o c : List Char) : Nat → Mode → List Char → Nat → Tracker →
    List Event × StopReason
  | 0, _, _, _, _ => ([], .fuelOut)
  | _ + 1, _, [], _, _ => ([], .endOfInput)
  | fuel + 1, .seekingOpen, ch :: cs, p, t =>
      let l := takeLine (ch :: cs)
      let s' := (ch :: cs).drop l.length
      if containsSub o l then
        if (t.tryClaim p).1 then
          let r := scanF o c fuel (.seekingClose [l]) s' (p + l.length) (t.tryClaim p).2
          (.claim p true :: r.1, r.2)
        else ([.claim p false], .claimFailed)
      else
        scanF o c fuel .seekingOpen s' (p + l.length) t
  | fuel + 1, .seekingClose acc, ch :: cs, p, t =>
      let l := takeLine (ch :: cs)
      let s' := (ch :: cs).drop l.length
      if containsSub c l then
        let r := scanF o c fuel .seekingOpen s' (p + l.length) t
        (.emit (acc ++ [l]) :: r.1, r.2)
      else
        scanF o c fuel (.seekingClose (acc ++ [l])) s' (p + l.length) t

/-- The scanner with always-adequate fuel. -/
def runScan (o c : List Char) (m : Mode) (s : List Char) (p : Nat) (t : Tracker) :
    List Event × StopReason :=
  scanF o c (s.length + 1) m s p t

/-- Where `tag_iterator` seeks before scanning:
`f.seek(offset_range_tracker.start_position() or 0)`. -/
def seekTargetOf (t : Tracker) : Nat := pyOr t.startPosition

/-- The full run of `tag_iterator`: seek, then scan from there. -/
def tagIteratorEvents (file o c : List Char) (t : Tracker) : List Event × StopReason :=
  runScan o c .seekingOpen (file.drop (seekTargetOf t)) (seekTargetOf t) t

/-- The string yielded for an emit event (`''.join(content)`). -/
def recordText : Event → Option (List Char)
  | .emit r => some r.flatten
  | _ => none

/-- The records `tag_iterator` yields, in order. -/
def tagIterator (file o c : List Char) (t : Tracker) : List (List Char) :=
  (tagIteratorEvents file o c t).1.filterMap recordText

/-- `self.open_tag = '<{}>'.format(element)` from `XmlFileSource.__init__`. -/
def openTagOf (element : List Char) : List Char := '<' :: (element ++ ['>'])

/-- `self.close_tag = '</{}>'.format(element)` from `XmlFileSource.__init__`. -/
def closeTagOf (element : List Char) : List Char := '<' :: '/' :: (element ++ ['>'])

/-- `XmlFileSource(element).read_records(file, tracker)` as a list of
record strings. -/
def xmlReadRecords (element file : List Char) (t : Tracker) : List (List Char) :=
  tagIterator file (openTagOf element) (closeTagOf element) t


/-! ## Basic line lemmas -/

theorem takeLine_ne_nil {ch : Char} {cs : List Char} : takeLine (ch :: cs) ≠ [] := by
  unfold takeLine
  split <;> simp

theorem takeLine_pre (s : List Char) : takeLine s <+: s := by
  induction s with
  | nil => simp [takeLine]
  | cons ch cs ih =>
    unfold takeLine
    split
    · rename_i hch
      subst hch
      exact ⟨cs, rfl⟩
    · exact (List.prefix_cons_inj ch).mpr ih

theorem takeLine_length_le (s : List Char) : (takeLine s).length ≤ s.length :=
  (takeLine_pre s).length_le

theorem takeLine_append_drop (s : List Char) :
    takeLine s ++ s.drop (takeLine s).length = s := by
  obtain ⟨tl, htl⟩ := takeLine_pre s
  generalize hu : takeLine s = u at htl ⊢
  rw [← htl, List.drop_left]

theorem drop_takeLine_length_lt {s : List Char} (h : s ≠ []) :
    (s.drop (takeLine s).length).length < s.length := by
  obtain ⟨ch, cs, rfl⟩ := List.exists_cons_of_ne_nil h
  have hpos : 0 < (takeLine (ch :: cs)).length :=
    List.length_pos.mpr takeLine_ne_nil
  simp only [List.length_drop, List.length_cons]
  omega

/-! ## Lines of a suffix -/

theorem linesOfF_stable : ∀ (f₁ f₂ : Nat) (s : List Char),
    s.length ≤ f₁ → s.length ≤ f₂ → linesOfF f₁ s = linesOfF f₂ s := by
  intro f₁
  induction f₁ with
  | zero =>
    intro f₂ s h₁ _
    have : s = [] := List.length_eq_zero.mp (Nat.le_zero.mp h₁)
    subst this
    cases f₂ <;> rfl
  | succ n ih =>
    intro f₂ s h₁ h₂
    cases s with
    | nil => cases f₂ <;> rfl
    | cons ch cs =>
      cases f₂ with
      | zero => simp at h₂
      | succ m =>
        simp only [linesOfF]
        congr 1
        have hlt := drop_takeLine_length_lt (s := ch :: cs) (by simp)
        refine ih m _ ?_ ?_
        · omega
        · omega

theorem linesOf_nil : linesOf [] = [] := rfl

theorem linesOf_cons {s : List Char} (h : s ≠ []) :
    linesOf s = takeLine s :: linesOf (s.drop (takeLine s).length) := by
  obtain ⟨ch, cs, rfl⟩ := List.exists_cons_of_ne_nil h
  show linesOfF (cs.length + 1) (ch :: cs) = _
  simp only [linesOfF]
  congr 1
  have hlt := drop_takeLine_length_lt (s := ch :: cs) (by simp)
  exact linesOfF_stable _ _ _ (by simpa using Nat.lt_succ_iff.mp hlt) le_rfl

theorem linesOf_eq_nil_iff {s : List Char} : linesOf s = [] ↔ s = [] := by
  constructor
  · intro h
    by_contra hne
    rw [linesOf_cons hne] at h
    exact List.cons_ne_nil _ _ h
  · intro h
    subst h
    rfl

theorem flatten_linesOf (s : List Char) : (linesOf s).flatten = s := by
  have key : ∀ (f : Nat) (u : List Char), u.length ≤ f → (linesOfF f u).flatten = u := by
    intro f
    induction f with
    | zero =>
      intro u hu
      have : u = [] := List.length_eq_zero.mp (Nat.le_zero.mp hu)
      subst this
      rfl
    | succ n ih =>
      intro u hu
      cases u with
      | nil => rfl
      | cons ch cs =>
        simp only [linesOfF, List.flatten_cons]
        have hlt := drop_takeLine_length_lt (s := ch :: cs) (by simp)
        rw [ih _ (by omega)]
        exact takeLine_append_drop _
  exact key _ _ le_rfl

theorem ne_nil_of_mem_linesOf {l : Line} {s : List Char} (h : l ∈ linesOf s) : l ≠ [] := by
  have key : ∀ (f : Nat) (u : List Char), l ∈ linesOfF f u → l ≠ [] := by
    intro f
    induction f with
    | zero => intro u h; simp [linesOfF] at h
    | succ n ih =>
      intro u h
      cases u with
      | nil => simp [linesOfF] at h
      | cons ch cs =>
        simp only [linesOfF, List.mem_cons] at h
        rcases h with h | h
        · subst h; exact takeLine_ne_nil
        · exact ih _ h
  exact key _ _ h

/-- Total character length of a list of lines. -/
def clen (ls : List Line) : Nat := (ls.map List.length).sum

theorem clen_nil : clen [] = 0 := rfl

theorem clen_cons (l : Line) (ls : List Line) : clen (l :: ls) = l.length + clen ls := by
  simp [clen]

theorem clen_append (a b : List Line) : clen (a ++ b) = clen a + clen b := by
  simp [clen]

theorem length_flatten_eq_clen (ls : List Line) : ls.flatten.length = clen ls := by
  induction ls with
  | nil => rfl
  | cons l ls ih => simp [clen_cons, ih]

/-- Dropping the characters of a prefix of the line decomposition leaves a
suffix whose lines are the remaining decomposition. -/
theorem linesOf_drop_clen : ∀ (L₁ : List Line) {L₂ : List Line} {s : List Char},
    linesOf s = L₁ ++ L₂ → linesOf (s.drop (clen L₁)) = L₂ := by
  intro L₁
  induction L₁ with
  | nil =>
    intro L₂ s h
    simpa [clen_nil] using h
  | cons l L₁' ih =>
    intro L₂ s h
    have hs : s ≠ [] := by
      intro hnil
      subst hnil
      simp [linesOf_nil] at h
    rw [linesOf_cons hs] at h
    obtain ⟨hl, hrest⟩ := List.cons.injEq _ _ _ _ ▸ h
    have := ih hrest
    rw [List.drop_drop] at this
    rw [clen_cons, ← hl]
    exact this


/-! ## Scanner step lemmas -/

theorem scanF_nil (o c : List Char) (f : Nat) (m : Mode) (p : Nat) (t : Tracker) :
    scanF o c (f + 1) m [] p t = ([], .endOfInput) := by
  cases m <;> rfl

theorem scanF_stable (o c : List Char) : ∀ (f₁ f₂ : Nat) (m : Mode) (s : List Char)
    (p : Nat) (t : Tracker), s.length < f₁ → s.length < f₂ →
    scanF o c f₁ m s p t = scanF o c f₂ m s p t := by
  intro f₁
  induction f₁ with
  | zero =>
    intro f₂ m s p t h₁ _
    omega
  | succ n ih =>
    intro f₂ m s p t h₁ h₂
    cases s with
    | nil =>
      cases f₂ with
      | zero => omega
      | succ k => rw [scanF_nil, scanF_nil]
    | cons ch cs =>
      cases f₂ with
      | zero => omega
      | succ k =>
        have hlt := drop_takeLine_length_lt (s := ch :: cs) (by simp)
        have hn : ((ch :: cs).drop (takeLine (ch :: cs)).length).length < n := by
          simp only [List.length_cons] at h₁ hlt ⊢
          omega
        have hk : ((ch :: cs).drop (takeLine (ch :: cs)).length).length < k := by
          simp only [List.length_cons] at h₂ hlt ⊢
          omega
        cases m with
        | seekingOpen =>
          simp only [scanF]
          split
          · split
            · rw [ih k _ _ _ _ hn hk]
            · rfl
          · exact ih k _ _ _ _ hn hk
        | seekingClose acc =>
          simp only [scanF]
          split
          · rw [ih k _ _ _ _ hn hk]
          · exact ih k _ _ _ _ hn hk

theorem runScan_nil (o c : List Char) (m : Mode) (p : Nat) (t : Tracker) :
    runScan o c m [] p t = ([], .endOfInput) := by
  cases m <;> rfl

theorem scanF_eq_runScan (o c : List Char) {f : Nat} {s : List Char} (h : s.length < f)
    (m : Mode) (p : Nat) (t : Tracker) :
    scanF o c f m s p t = runScan o c m s p t :=
  scanF_stable o c f (s.length + 1) m s p t h (Nat.lt_succ_self _)

theorem runScan_open_skip (o c : List Char) {s : List Char} (h : s ≠ []) (p : Nat)
    (t : Tracker) (hno : containsSub o (takeLine s) = false) :
    runScan o c .seekingOpen s p t =
      runScan o c .seekingOpen (s.drop (takeLine s).length)
        (p + (takeLine s).length) t := by
  obtain ⟨ch, cs, rfl⟩ := List.exists_cons_of_ne_nil h
  show scanF o c (cs.length + 1 + 1) _ _ _ _ = _
  simp only [scanF, hno, Bool.false_eq_true, if_false]
  exact scanF_eq_runScan o c (by
    have := drop_takeLine_length_lt (s := ch :: cs) (by simp)
    simpa using this) _ _ _

theorem runScan_open_claimT (o c : List Char) {s : List Char} (h : s ≠ []) (p : Nat)
    (t : Tracker) (hyes : containsSub o (takeLine s) = true)
    (hcl : (t.tryClaim p).1 = true) :
    runScan o c .seekingOpen s p t =
      (Event.claim p true ::
        (runScan o c (.seekingClose [takeLine s]) (s.drop (takeLine s).length)
          (p + (takeLine s).length) (t.tryClaim p).2).1,
       (runScan o c (.seekingClose [takeLine s]) (s.drop (takeLine s).length)
          (p + (takeLine s).length) (t.tryClaim p).2).2) := by
  obtain ⟨ch, cs, rfl⟩ := List.exists_cons_of_ne_nil h
  show scanF o c (cs.length + 1 + 1) _ _ _ _ = _
  simp only [scanF, hyes, hcl, if_true]
  rw [scanF_eq_runScan o c (by
    have := drop_takeLine_length_lt (s := ch :: cs) (by simp)
    simpa using this)]

theorem runScan_open_claimF (o c : List Char) {s : List Char} (h : s ≠ []) (p : Nat)
    (t : Tracker) (hyes : containsSub o (takeLine s) = true)
    (hcl : (t.tryClaim p).1 = false) :
    runScan o c .seekingOpen s p t = ([Event.claim p false], .claimFailed) := by
  obtain ⟨ch, cs, rfl⟩ := List.exists_cons_of_ne_nil h
  show scanF o c (cs.length + 1 + 1) _ _ _ _ = _
  simp only [scanF, hyes, hcl, if_true, Bool.false_eq_true, if_false]

theorem runScan_close_hit (o c : List Char) {s : List Char} (h : s ≠ []) (acc : List Line)
    (p : Nat) (t : Tracker) (hc : containsSub c (takeLine s) = true) :
    runScan o c (.seekingClose acc) s p t =
      (Event.emit (acc ++ [takeLine s]) ::
        (runScan o c .seekingOpen (s.drop (takeLine s).length)
          (p + (takeLine s).length) t).1,
       (runScan o c .seekingOpen (s.drop (takeLine s).length)
          (p + (takeLine s).length) t).2) := by
  obtain ⟨ch, cs, rfl⟩ := List.exists_cons_of_ne_nil h
  show scanF o c (cs.length + 1 + 1) _ _ _ _ = _
  simp only [scanF, hc, if_true]
  rw [scanF_eq_runScan o c (by
    have := drop_takeLine_length_lt (s := ch :: cs) (by simp)
    simpa using this)]

theorem runScan_close_miss (o c : List Char) {s : List Char} (h : s ≠ []) (acc : List Line)
    (p : Nat) (t : Tracker) (hc : containsSub c (takeLine s) = false) :
    runScan o c (.seekingClose acc) s p t =
      runScan o c (.seekingClose (acc ++ [takeLine s])) (s.drop (takeLine s).length)
        (p + (takeLine s).length) t := by
  obtain ⟨ch, cs, rfl⟩ := List.exists_cons_of_ne_nil h
  show scanF o c (cs.length + 1 + 1) _ _ _ _ = _
  simp only [scanF, hc, Bool.false_eq_true, if_false]
  exact scanF_eq_runScan o c (by
    have := drop_takeLine_length_lt (s := ch :: cs) (by simp)
    simpa using this) _ _ _


/-! ## Event invariants -/

/-- The positions passed to `try_claim`, in call order. -/
def claimsOf (evs : List Event) : List Nat :=
  evs.filterMap fun e =>
    match e with
    | Event.claim q _ => some q
    | _ => none

theorem scanF_claimFalse_last (o c : List Char) : ∀ (f : Nat) (m : Mode) (s : List Char)
    (p : Nat) (t : Tracker) (pre : List Event) (q : Nat) (post : List Event),
    (scanF o c f m s p t).1 = pre ++ Event.claim q false :: post →
    post = [] ∧ (scanF o c f m s p t).2 = .claimFailed := by
  intro f
  induction f with
  | zero =>
    intro m s p t pre q post h
    simp only [scanF] at h
    exact absurd h.symm (List.append_ne_nil_of_right_ne_nil _ (List.cons_ne_nil _ _))
  | succ n ih =>
    intro m s p t pre q post h
    cases s with
    | nil =>
      rw [scanF_nil] at h ⊢
      exact absurd h.symm (List.append_ne_nil_of_right_ne_nil _ (List.cons_ne_nil _ _))
    | cons ch cs =>
      cases m with
      | seekingOpen =>
        simp only [scanF] at h ⊢
        cases ho : containsSub o (takeLine (ch :: cs)) with
        | false =>
          simp only [ho, Bool.false_eq_true, ↓reduceIte] at h ⊢
          exact ih _ _ _ _ pre q post h
        | true =>
          simp only [ho, ↓reduceIte] at h ⊢
          cases hcl : (t.tryClaim p).1 with
          | false =>
            simp only [hcl, Bool.false_eq_true, ↓reduceIte] at h ⊢
            cases pre with
            | nil =>
              simp only [List.nil_append, List.cons.injEq] at h
              exact ⟨h.2.symm, trivial⟩
            | cons e pre' =>
              simp only [List.cons_append, List.cons.injEq] at h
              exact absurd h.2.symm (List.append_ne_nil_of_right_ne_nil _ (List.cons_ne_nil _ _))
          | true =>
            simp only [hcl, ↓reduceIte] at h ⊢
            cases pre with
            | nil =>
              simp only [List.nil_append, List.cons.injEq] at h
              exact absurd h.1 (by simp)
            | cons e pre' =>
              simp only [List.cons_append, List.cons.injEq] at h
              exact ih _ _ _ _ pre' q post h.2
      | seekingClose acc =>
        simp only [scanF] at h ⊢
        cases hc : containsSub c (takeLine (ch :: cs)) with
        | false =>
          simp only [hc, Bool.false_eq_true, ↓reduceIte] at h ⊢
          exact ih _ _ _ _ pre q post h
        | true =>
          simp only [hc, ↓reduceIte] at h ⊢
          cases pre with
          | nil =>
            simp only [List.nil_append, List.cons.injEq] at h
            exact absurd h.1 (by simp)
          | cons e pre' =>
            simp only [List.cons_append, List.cons.injEq] at h
            exact ih _ _ _ _ pre' q post h.2


theorem scanF_claims_mono (o c : List Char) : ∀ (f : Nat) (m : Mode) (s : List Char)
    (p : Nat) (t : Tracker),
    (∀ q ∈ claimsOf (scanF o c f m s p t).1, p ≤ q) ∧
      List.Pairwise (fun a b => a < b) (claimsOf (scanF o c f m s p t).1) := by
  intro f
  induction f with
  | zero =>
    intro m s p t
    simp [scanF, claimsOf]
  | succ n ih =>
    intro m s p t
    cases s with
    | nil =>
      rw [scanF_nil]
      simp [claimsOf]
    | cons ch cs =>
      have hlen : 0 < (takeLine (ch :: cs)).length := List.length_pos.mpr takeLine_ne_nil
      cases m with
      | seekingOpen =>
        simp only [scanF]
        cases ho : containsSub o (takeLine (ch :: cs)) with
        | false =>
          simp only [Bool.false_eq_true, ↓reduceIte]
          obtain ⟨h₁, h₂⟩ := ih .seekingOpen ((ch :: cs).drop (takeLine (ch :: cs)).length)
            (p + (takeLine (ch :: cs)).length) t
          exact ⟨fun q hq => le_trans (Nat.le_add_right _ _) (h₁ q hq), h₂⟩
        | true =>
          simp only [↓reduceIte]
          cases hcl : (t.tryClaim p).1 with
          | false =>
            simp only [Bool.false_eq_true, ↓reduceIte]
            simp [claimsOf]
          | true =>
            simp only [↓reduceIte]
            obtain ⟨h₁, h₂⟩ := ih (.seekingClose [takeLine (ch :: cs)])
              ((ch :: cs).drop (takeLine (ch :: cs)).length)
              (p + (takeLine (ch :: cs)).length) (t.tryClaim p).2
            constructor
            · intro q hq
              simp only [claimsOf, List.filterMap_cons] at hq
              simp only [List.mem_cons] at hq
              rcases hq with rfl | hq
              · exact le_refl _
              · exact le_trans (Nat.le_add_right _ _) (h₁ q hq)
            · simp only [claimsOf, List.filterMap_cons]
              refine List.Pairwise.cons ?_ h₂
              intro q hq
              exact lt_of_lt_of_le (Nat.lt_add_of_pos_right hlen) (h₁ q hq)
      | seekingClose acc =>
        simp only [scanF]
        cases hc : containsSub c (takeLine (ch :: cs)) with
        | false =>
          simp only [Bool.false_eq_true, ↓reduceIte]
          obtain ⟨h₁, h₂⟩ := ih (.seekingClose (acc ++ [takeLine (ch :: cs)]))
            ((ch :: cs).drop (takeLine (ch :: cs)).length)
            (p + (takeLine (ch :: cs)).length) t
          exact ⟨fun q hq => le_trans (Nat.le_add_right _ _) (h₁ q hq), h₂⟩
        | true =>
          simp only [↓reduceIte]
          obtain ⟨h₁, h₂⟩ := ih .seekingOpen ((ch :: cs).drop (takeLine (ch :: cs)).length)
            (p + (takeLine (ch :: cs)).length) t
          constructor
          · intro q hq
            simp only [claimsOf, List.filterMap_cons] at hq
            exact le_trans (Nat.le_add_right _ _) (h₁ q hq)
          · simpa only [claimsOf, List.filterMap_cons] using h₂


theorem scanF_claim_marker (file o c : List Char) : ∀ (f : Nat) (m : Mode) (p : Nat)
    (t : Tracker) (q : Nat) (b : Bool),
    Event.claim q b ∈ (scanF o c f m (file.drop p) p t).1 →
    containsSub o (lineAt file q) = true ∧ q < file.length := by
  intro f
  induction f with
  | zero =>
    intro m p t q b h
    simp [scanF] at h
  | succ n ih =>
    intro m p t q b h
    rcases hdp : file.drop p with _ | ⟨ch, cs⟩
    · rw [hdp, scanF_nil] at h
      simp at h
    · have hplt : p < file.length := by
        by_contra hge
        rw [List.drop_eq_nil_of_le (Nat.le_of_not_lt hge)] at hdp
        exact List.cons_ne_nil _ _ hdp.symm
      have hdrop : (ch :: cs).drop (takeLine (ch :: cs)).length =
          file.drop (p + (takeLine (ch :: cs)).length) := by
        rw [← hdp, List.drop_drop]
      rw [hdp] at h
      cases m with
      | seekingOpen =>
        simp only [scanF] at h
        cases ho : containsSub o (takeLine (ch :: cs)) with
        | false =>
          simp only [ho, Bool.false_eq_true, ↓reduceIte] at h
          rw [hdrop] at h
          exact ih _ _ _ q b h
        | true =>
          simp only [ho, ↓reduceIte] at h
          cases hcl : (t.tryClaim p).1 with
          | false =>
            simp only [hcl, Bool.false_eq_true, ↓reduceIte] at h
            simp only [List.mem_singleton, Event.claim.injEq] at h
            obtain ⟨rfl, -⟩ := h
            refine ⟨?_, hplt⟩
            rw [lineAt, hdp]
            exact ho
          | true =>
            simp only [hcl, ↓reduceIte, List.mem_cons] at h
            rcases h with h | h
            · simp only [Event.claim.injEq] at h
              obtain ⟨rfl, -⟩ := h
              refine ⟨?_, hplt⟩
              rw [lineAt, hdp]
              exact ho
            · rw [hdrop] at h
              exact ih _ _ _ q b h
      | seekingClose acc =>
        simp only [scanF] at h
        cases hc : containsSub c (takeLine (ch :: cs)) with
        | false =>
          simp only [hc, Bool.false_eq_true, ↓reduceIte] at h
          rw [hdrop] at h
          exact ih _ _ _ q b h
        | true =>
          simp only [hc, ↓reduceIte, List.mem_cons] at h
          rcases h with h | h
          · simp at h
          · rw [hdrop] at h
            exact ih _ _ _ q b h


/-- Shape of an emitted record, as a list of lines: it opens with a line
containing the open marker, no interior line contains the close marker,
and the final line does. -/
def RecordShape (o c : List Char) (r : List Line) : Prop :=
  ∃ first body lastL, r = first :: body ++ [lastL] ∧
    containsSub o first = true ∧
    (∀ x ∈ body, containsSub c x = false) ∧
    containsSub c lastL = true

/-- Invariant carried by the scanner state: a partially accumulated record
already opens with a marker line, has no close marker yet past its first
line, and consists of consecutive lines of the file. -/
def ModeOk (file o c : List Char) (p : Nat) : Mode → Prop
  | .seekingOpen => True
  | .seekingClose acc =>
      ∃ first body, acc = first :: body ∧ containsSub o first = true ∧
        (∀ x ∈ body, containsSub c x = false) ∧
        ∃ q, linesOf (file.drop q) = acc ++ linesOf (file.drop p)

theorem scanF_emit_shape (file o c : List Char) : ∀ (f : Nat) (m : Mode) (p : Nat)
    (t : Tracker), ModeOk file o c p m → ∀ r,
    Event.emit r ∈ (scanF o c f m (file.drop p) p t).1 →
    RecordShape o c r ∧ ∃ q tl, linesOf (file.drop q) = r ++ tl := by
  intro f
  induction f with
  | zero =>
    intro m p t _ r h
    simp [scanF] at h
  | succ n ih =>
    intro m p t hm r h
    rcases hdp : file.drop p with _ | ⟨ch, cs⟩
    · rw [hdp, scanF_nil] at h
      simp at h
    · have hdrop : (ch :: cs).drop (takeLine (ch :: cs)).length =
          file.drop (p + (takeLine (ch :: cs)).length) := by
        rw [← hdp, List.drop_drop]
      have hlines : linesOf (file.drop p) =
          takeLine (ch :: cs) :: linesOf (file.drop (p + (takeLine (ch :: cs)).length)) := by
        rw [hdp, linesOf_cons (List.cons_ne_nil ch cs), hdrop]
      rw [hdp] at h
      cases m with
      | seekingOpen =>
        simp only [scanF] at h
        cases ho : containsSub o (takeLine (ch :: cs)) with
        | false =>
          simp only [ho, Bool.false_eq_true, ↓reduceIte] at h
          rw [hdrop] at h
          exact ih _ _ _ (by simp [ModeOk]) r h
        | true =>
          simp only [ho, ↓reduceIte] at h
          cases hcl : (t.tryClaim p).1 with
          | false =>
            simp only [hcl, Bool.false_eq_true, ↓reduceIte] at h
            simp at h
          | true =>
            simp only [hcl, ↓reduceIte, List.mem_cons] at h
            rcases h with h | h
            · simp at h
            · rw [hdrop] at h
              refine ih _ _ _ ?_ r h
              refine ⟨takeLine (ch :: cs), [], rfl, ho, by simp, p, ?_⟩
              simpa using hlines
      | seekingClose acc =>
        obtain ⟨first, body, hacc, hfirst, hbody, qa, hqa⟩ := hm
        simp only [scanF] at h
        cases hc : containsSub c (takeLine (ch :: cs)) with
        | false =>
          simp only [hc, Bool.false_eq_true, ↓reduceIte] at h
          rw [hdrop] at h
          refine ih _ _ _ ?_ r h
          refine ⟨first, body ++ [takeLine (ch :: cs)], by rw [hacc]; simp, hfirst, ?_, qa, ?_⟩
          · intro x hx
            rcases List.mem_append.mp hx with hx | hx
            · exact hbody x hx
            · rw [List.mem_singleton.mp hx]
              exact hc
          · rw [hqa, hlines]
            simp
        | true =>
          simp only [hc, ↓reduceIte, List.mem_cons] at h
          rcases h with h | h
          · obtain ⟨rfl⟩ := Event.emit.injEq _ _ ▸ h
            constructor
            · exact ⟨first, body, takeLine (ch :: cs), by rw [hacc], hfirst, hbody, hc⟩
            · refine ⟨qa, linesOf (file.drop (p + (takeLine (ch :: cs)).length)), ?_⟩
              rw [hqa, hlines]
              simp
          · rw [hdrop] at h
            exact ih _ _ _ (by simp [ModeOk]) r h


/-! ## Composition lemmas over line decompositions -/

theorem linesOf_cons_inv {s : List Char} {l : Line} {L : List Line}
    (h : linesOf s = l :: L) :
    s ≠ [] ∧ takeLine s = l ∧ linesOf (s.drop l.length) = L := by
  have hs : s ≠ [] := by
    intro hnil
    subst hnil
    simp [linesOf_nil] at h
  rw [linesOf_cons hs] at h
  obtain ⟨h₁, h₂⟩ := List.cons.injEq _ _ _ _ ▸ h
  exact ⟨hs, h₁, h₁ ▸ h₂⟩

theorem runScan_skip_junk (o c : List Char) : ∀ (junk : List Line) {L₂ : List Line}
    {s : List Char} (p : Nat) (t : Tracker),
    linesOf s = junk ++ L₂ → (∀ l ∈ junk, containsSub o l = false) →
    runScan o c .seekingOpen s p t =
      runScan o c .seekingOpen (s.drop (clen junk)) (p + clen junk) t := by
  intro junk
  induction junk with
  | nil =>
    intro L₂ s p t _ _
    simp [clen_nil]
  | cons l junk' ih =>
    intro L₂ s p t hs hno
    obtain ⟨hne, htl, hrest⟩ := linesOf_cons_inv hs
    rw [runScan_open_skip o c hne p t (htl ▸ hno l (by simp))]
    rw [htl, ih (p + l.length) t hrest (fun x hx => hno x (by simp [hx]))]
    have harg1 : (s.drop l.length).drop (clen junk') = s.drop (clen (l :: junk')) := by
      rw [List.drop_drop, clen_cons]
    have harg2 : p + l.length + clen junk' = p + clen (l :: junk') := by
      rw [clen_cons]
      omega
    rw [harg1, harg2]

theorem runScan_close_run (o c : List Char) : ∀ (mid : List Line) {lastL : Line}
    {rest : List Line} {s : List Char} (p : Nat) (acc : List Line) (t : Tracker),
    linesOf s = mid ++ lastL :: rest → (∀ l ∈ mid, containsSub c l = false) →
    containsSub c lastL = true →
    runScan o c (.seekingClose acc) s p t =
      (Event.emit (acc ++ mid ++ [lastL]) ::
        (runScan o c .seekingOpen (s.drop (clen mid + lastL.length))
          (p + (clen mid + lastL.length)) t).1,
       (runScan o c .seekingOpen (s.drop (clen mid + lastL.length))
          (p + (clen mid + lastL.length)) t).2) := by
  intro mid
  induction mid with
  | nil =>
    intro lastL rest s p acc t hs _ hlast
    obtain ⟨hne, htl, _⟩ := linesOf_cons_inv hs
    rw [runScan_close_hit o c hne acc p t (htl ▸ hlast)]
    rw [htl]
    simp [clen_nil]
  | cons m mid' ih =>
    intro lastL rest s p acc t hs hmid hlast
    obtain ⟨hne, htl, hrest⟩ := linesOf_cons_inv hs
    rw [runScan_close_miss o c hne acc p t (htl ▸ hmid m (by simp))]
    rw [htl, ih (p + m.length) (acc ++ [m]) t hrest
      (fun x hx => hmid x (by simp [hx])) hlast]
    rw [List.drop_drop, clen_cons]
    simp [Nat.add_assoc]

theorem runScan_close_eof (o c : List Char) : ∀ (tl : List Line) {s : List Char}
    (p : Nat) (acc : List Line) (t : Tracker),
    linesOf s = tl → (∀ l ∈ tl, containsSub c l = false) →
    runScan o c (.seekingClose acc) s p t = ([], .endOfInput) := by
  intro tl
  induction tl with
  | nil =>
    intro s p acc t hs _
    rw [linesOf_eq_nil_iff.mp hs, runScan_nil]
  | cons l tl' ih =>
    intro s p acc t hs hno
    obtain ⟨hne, htl, hrest⟩ := linesOf_cons_inv hs
    rw [runScan_close_miss o c hne acc p t (htl ▸ hno l (by simp))]
    rw [htl]
    exact ih _ _ _ hrest (fun x hx => hno x (by simp [hx]))

theorem runScan_junk_eof (o c : List Char) (tl : List Line) {s : List Char}
    (p : Nat) (t : Tracker) (hs : linesOf s = tl)
    (hno : ∀ l ∈ tl, containsSub o l = false) :
    runScan o c .seekingOpen s p t = ([], .endOfInput) := by
  rw [runScan_skip_junk o c tl p t (by rw [hs, List.append_nil]) hno]
  have h2 : linesOf (s.drop (clen tl)) = [] :=
    linesOf_drop_clen tl (by rw [hs, List.append_nil])
  rw [linesOf_eq_nil_iff.mp h2, runScan_nil]


/-! ## Well-formed record blocks -/

/-- One record together with the non-record lines preceding it:
`junk` lines contain no open marker, `first` is the open-tag line,
`mid` the interior lines and `lastLine` the close-tag line. -/
structure Block where
  junk : List Line
  first : Line
  mid : List Line
  lastLine : Line
deriving DecidableEq

/-- All lines a block contributes to the file, in order. -/
def Block.lines (b : Block) : List Line :=
  b.junk ++ b.first :: (b.mid ++ [b.lastLine])

/-- The lines of the record proper. -/
def Block.record (b : Block) : List Line :=
  b.first :: (b.mid ++ [b.lastLine])

/-- The record's text: what `tag_iterator` yields for the block. -/
def Block.text (b : Block) : List Char := b.record.flatten

/-- Marker discipline of a well-formed, non-nested occurrence whose open
and close markers sit on distinct lines, preceded by marker-free junk. -/
def Block.Ok (o c : List Char) (b : Block) : Prop :=
  (∀ l ∈ b.junk, containsSub o l = false) ∧
  containsSub o b.first = true ∧ containsSub c b.first = false ∧
  (∀ l ∈ b.mid, containsSub o l = false ∧ containsSub c l = false) ∧
  containsSub c b.lastLine = true ∧ containsSub o b.lastLine = false

instance (o c : List Char) (b : Block) : Decidable (Block.Ok o c b) := by
  unfold Block.Ok
  infer_instance

/-- The lines of a list of blocks, in file order. -/
def allLines (bs : List Block) : List Line := (bs.map Block.lines).flatten

/-- The byte offsets of the blocks' open-tag lines when scanning starts
at byte `p`: exactly the positions passed to `try_claim`. -/
def blockStarts (p : Nat) : List Block → List Nat
  | [] => []
  | b :: bs => (p + clen b.junk) :: blockStarts (p + clen b.lines) bs

/-- The events the scanner produces over the blocks' lines. -/
def blockEvents (p : Nat) : List Block → List Event
  | [] => []
  | b :: bs =>
      Event.claim (p + clen b.junk) true :: Event.emit b.record ::
        blockEvents (p + clen b.lines) bs

/-- The tracker state after claiming every block start. -/
def trackAfter : Tracker → Nat → List Block → Tracker
  | t, _, [] => t
  | t, p, b :: bs =>
      trackAfter { t with lastClaim := some (p + clen b.junk) } (p + clen b.lines) bs

theorem allLines_nil : allLines [] = [] := rfl

theorem allLines_cons (b : Block) (bs : List Block) :
    allLines (b :: bs) = b.lines ++ allLines bs := by
  simp [allLines]

theorem clen_block_lines (b : Block) :
    clen b.lines = clen b.junk + (b.first.length + (clen b.mid + b.lastLine.length)) := by
  simp [Block.lines, clen_append, clen_cons, clen_nil]

theorem trackAfter_startPosition : ∀ (bs : List Block) (t : Tracker) (p : Nat),
    (trackAfter t p bs).startPosition = t.startPosition := by
  intro bs
  induction bs with
  | nil => intro t p; rfl
  | cons b bs ih => intro t p; exact ih _ _

theorem trackAfter_stopPosition : ∀ (bs : List Block) (t : Tracker) (p : Nat),
    (trackAfter t p bs).stopPosition = t.stopPosition := by
  intro bs
  induction bs with
  | nil => intro t p; rfl
  | cons b bs ih => intro t p; exact ih _ _

theorem trackAfter_startD (bs : List Block) (t : Tracker) (p : Nat) :
    (trackAfter t p bs).startD = t.startD := by
  unfold Tracker.startD
  rw [trackAfter_startPosition]

theorem trackAfter_lastClaim_le : ∀ (bs : List Block) (t : Tracker) (p : Nat),
    (∀ x ∈ t.lastClaim, x ≤ p) →
    ∀ x ∈ (trackAfter t p bs).lastClaim, x ≤ p + clen (allLines bs) := by
  intro bs
  induction bs with
  | nil =>
    intro t p h x hx
    rw [allLines_nil]
    exact le_trans (h x hx) (Nat.le_add_right _ _)
  | cons b bs ih =>
    intro t p h x hx
    have hb : clen b.junk ≤ clen b.lines := by
      rw [clen_block_lines]
      omega
    have := ih { t with lastClaim := some (p + clen b.junk) } (p + clen b.lines)
      (by
        intro y hy
        simp only [Option.mem_def, Option.some.injEq] at hy
        omega) x hx
    rw [allLines_cons, clen_append]
    omega

theorem tryClaim_success {t : Tracker} {q : Nat} (h1 : t.startD ≤ q)
    (h2 : q < t.stopPosition) (h3 : ∀ x ∈ t.lastClaim, x ≤ q) :
    t.tryClaim q = (true, { t with lastClaim := some q }) := by
  have hacc : t.accepts q = true := by
    unfold Tracker.accepts
    cases hl : t.lastClaim with
    | none => simp [h1, h2]
    | some x => simp [h1, h2, h3 x (by simp [hl])]
  unfold Tracker.tryClaim
  rw [hacc]
  simp

theorem tryClaim_fail_stop {t : Tracker} {q : Nat} (h : t.stopPosition ≤ q) :
    t.tryClaim q = (false, t) := by
  have hacc : t.accepts q = false := by
    unfold Tracker.accepts
    simp [Nat.not_lt.mpr h]
  unfold Tracker.tryClaim
  rw [hacc]
  simp


theorem runScan_blocks (o c : List Char) : ∀ (blocks : List Block) {L₂ : List Line}
    {s : List Char} (p : Nat) (t : Tracker),
    linesOf s = allLines blocks ++ L₂ →
    (∀ b ∈ blocks, Block.Ok o c b) →
    t.startD ≤ p →
    (∀ x ∈ t.lastClaim, x ≤ p) →
    (∀ q ∈ blockStarts p blocks, q < t.stopPosition) →
    runScan o c .seekingOpen s p t =
      (blockEvents p blocks ++
        (runScan o c .seekingOpen (s.drop (clen (allLines blocks)))
          (p + clen (allLines blocks)) (trackAfter t p blocks)).1,
       (runScan o c .seekingOpen (s.drop (clen (allLines blocks)))
          (p + clen (allLines blocks)) (trackAfter t p blocks)).2) := by
  intro blocks
  induction blocks with
  | nil =>
    intro L₂ s p t _ _ _ _ _
    simp [allLines_nil, blockEvents, trackAfter, clen_nil]
  | cons b bs ih =>
    intro L₂ s p t hs hok hstart hlast hstops
    obtain ⟨hj, hof, hcf, hmids, hcl2, hol⟩ := hok b (by simp)
    have hs' : linesOf s =
        b.junk ++ (b.first :: (b.mid ++ (b.lastLine :: (allLines bs ++ L₂)))) := by
      rw [hs, allLines_cons, Block.lines]
      simp
    rw [runScan_skip_junk o c b.junk p t hs' hj]
    have hs₁ : linesOf (s.drop (clen b.junk)) =
        b.first :: (b.mid ++ (b.lastLine :: (allLines bs ++ L₂))) :=
      linesOf_drop_clen b.junk hs'
    obtain ⟨hne₁, htl₁, hrest₁⟩ := linesOf_cons_inv hs₁
    have hqstop : p + clen b.junk < t.stopPosition :=
      hstops _ (by simp [blockStarts])
    have hclaim : t.tryClaim (p + clen b.junk) =
        (true, { t with lastClaim := some (p + clen b.junk) }) :=
      tryClaim_success (le_trans hstart (Nat.le_add_right _ _)) hqstop
        (fun x hx => le_trans (hlast x hx) (Nat.le_add_right _ _))
    rw [runScan_open_claimT o c hne₁ (p + clen b.junk) t
      (by rw [htl₁]; exact hof) (by rw [hclaim])]
    rw [htl₁, hclaim]
    rw [runScan_close_run o c b.mid (p + clen b.junk + b.first.length) [b.first]
      { t with lastClaim := some (p + clen b.junk) } hrest₁
      (fun l hl => (hmids l hl).2) hcl2]
    have hs₂a := linesOf_drop_clen b.mid hrest₁
    have hs₂b := linesOf_drop_clen [b.lastLine] (by rw [hs₂a]; rfl)
    rw [List.drop_drop] at hs₂b
    have hx : clen b.mid + clen [b.lastLine] = clen b.mid + b.lastLine.length := by
      simp [clen_cons, clen_nil]
    rw [hx] at hs₂b
    have htrack : p + clen b.junk + b.first.length + (clen b.mid + b.lastLine.length) =
        p + clen b.lines := by
      rw [clen_block_lines]
      omega
    rw [htrack]
    rw [ih (p + clen b.lines) { t with lastClaim := some (p + clen b.junk) }
      hs₂b (fun b' hb' => hok b' (by simp [hb']))
      (le_trans hstart (Nat.le_add_right _ _))
      (by
        intro x hx2
        simp only [Option.mem_def, Option.some.injEq] at hx2
        have hjl : clen b.junk ≤ clen b.lines := by
          rw [clen_block_lines]
          omega
        omega)
      (by
        intro q hq
        exact hstops q (by simp [blockStarts, hq]))]
    have hsarg : (((s.drop (clen b.junk)).drop b.first.length).drop
        (clen b.mid + b.lastLine.length)).drop (clen (allLines bs)) =
        s.drop (clen (allLines (b :: bs))) := by
      rw [List.drop_drop, List.drop_drop, List.drop_drop]
      congr 1
      rw [allLines_cons, clen_append, clen_block_lines]
      omega
    have hparg : p + clen b.lines + clen (allLines bs) =
        p + clen (allLines (b :: bs)) := by
      rw [allLines_cons, clen_append, clen_block_lines]
      omega
    rw [hsarg, hparg]
    simp [blockEvents, trackAfter, Block.record]


theorem runScan_trunc_tail (o c : List Char) (junk2 : List Line) {openL : Line}
    {mids : List Line} {s : List Char} (p : Nat) (t : Tracker)
    (hs : linesOf s = junk2 ++ (openL :: mids))
    (hj : ∀ l ∈ junk2, containsSub o l = false)
    (ho : containsSub o openL = true)
    (hstart : t.startD ≤ p + clen junk2)
    (hstop : p + clen junk2 < t.stopPosition)
    (hlast : ∀ x ∈ t.lastClaim, x ≤ p + clen junk2)
    (hmc : ∀ l ∈ mids, containsSub c l = false) :
    runScan o c .seekingOpen s p t =
      ([Event.claim (p + clen junk2) true], .endOfInput) := by
  rw [runScan_skip_junk o c junk2 p t hs hj]
  have hs₁ : linesOf (s.drop (clen junk2)) = openL :: mids := linesOf_drop_clen junk2 hs
  obtain ⟨hne₁, htl₁, hrest₁⟩ := linesOf_cons_inv hs₁
  have hclaim : t.tryClaim (p + clen junk2) =
      (true, { t with lastClaim := some (p + clen junk2) }) :=
    tryClaim_success hstart hstop hlast
  rw [runScan_open_claimT o c hne₁ (p + clen junk2) t (by rw [htl₁]; exact ho)
    (by rw [hclaim])]
  rw [htl₁, hclaim]
  rw [runScan_close_eof o c mids (p + clen junk2 + openL.length) [openL]
    { t with lastClaim := some (p + clen junk2) } hrest₁ hmc]

theorem runScan_fail_head (o c : List Char) (junk2 : List Line) {openL : Line}
    {rest : List Line} {s : List Char} (p : Nat) (t : Tracker)
    (hs : linesOf s = junk2 ++ (openL :: rest))
    (hj : ∀ l ∈ junk2, containsSub o l = false)
    (ho : containsSub o openL = true)
    (hstop : t.stopPosition ≤ p + clen junk2) :
    runScan o c .seekingOpen s p t =
      ([Event.claim (p + clen junk2) false], .claimFailed) := by
  rw [runScan_skip_junk o c junk2 p t hs hj]
  have hs₁ : linesOf (s.drop (clen junk2)) = openL :: rest := linesOf_drop_clen junk2 hs
  obtain ⟨hne₁, htl₁, -⟩ := linesOf_cons_inv hs₁
  have hfail : t.tryClaim (p + clen junk2) = (false, t) := tryClaim_fail_stop hstop
  rw [runScan_open_claimF o c hne₁ (p + clen junk2) t (by rw [htl₁]; exact ho)
    (by rw [hfail])]

theorem filterMap_recordText_blockEvents : ∀ (bs : List Block) (p : Nat),
    (blockEvents p bs).filterMap recordText = bs.map Block.text := by
  intro bs
  induction bs with
  | nil => intro p; rfl
  | cons b bs ih =>
    intro p
    simp only [blockEvents, List.filterMap_cons, recordText, List.map_cons]
    rw [ih]
    rfl

theorem block_first_mem_lines (b : Block) : b.first ∈ b.lines := by
  simp [Block.lines]

theorem block_first_ne_nil {bs : List Block} {L₂ : List Line} {s : List Char}
    (hs : linesOf s = allLines bs ++ L₂) : ∀ b ∈ bs, b.first ≠ [] := by
  intro b hb
  refine ne_nil_of_mem_linesOf (s := s) ?_
  rw [hs]
  refine List.mem_append_left _ ?_
  unfold allLines
  exact List.mem_flatten.mpr ⟨b.lines, List.mem_map_of_mem _ hb, block_first_mem_lines b⟩

theorem blockStarts_lt : ∀ (bs : List Block) (p : Nat),
    (∀ b ∈ bs, b.first ≠ []) →
    ∀ q ∈ blockStarts p bs, q < p + clen (allLines bs) := by
  intro bs
  induction bs with
  | nil =>
    intro p _ q hq
    simp [blockStarts] at hq
  | cons b bs ih =>
    intro p hne q hq
    have hfirst : 0 < b.first.length := List.length_pos.mpr (hne b (by simp))
    have hjl : clen b.junk < clen b.lines := by
      rw [clen_block_lines]
      omega
    simp only [blockStarts, List.mem_cons] at hq
    rcases hq with rfl | hq
    · rw [allLines_cons, clen_append]
      omega
    · have := ih (p + clen b.lines) (fun b' hb' => hne b' (by simp [hb'])) q hq
      rw [allLines_cons, clen_append]
      omega

theorem clen_le_of_linesOf {s : List Char} {L₁ L₂ : List Line}
    (hs : linesOf s = L₁ ++ L₂) : clen L₁ ≤ s.length := by
  have h1 : (linesOf s).flatten = s := flatten_linesOf s
  have h2 : s.length = clen (linesOf s) := by
    rw [← h1, length_flatten_eq_clen]
    rw [h1]
  rw [h2, hs, clen_append]
  exact Nat.le_add_right _ _


theorem length_eq_clen_linesOf (s : List Char) : s.length = clen (linesOf s) := by
  conv_lhs => rw [← flatten_linesOf s]
  rw [length_flatten_eq_clen]

theorem allLines_append (xs ys : List Block) :
    allLines (xs ++ ys) = allLines xs ++ allLines ys := by
  simp [allLines]

/-- A full run over `[0, file_length)` on a file whose lines decompose
into well-formed blocks followed by open-marker-free junk: the events are
exactly the blocks' claims and emits, the run ends at end of input, and
the records are the blocks' texts. -/
theorem tagIterator_wf_run (file o c : List Char) (blocks : List Block) (tl : List Line)
    (hs : linesOf file = allLines blocks ++ tl)
    (hok : ∀ b ∈ blocks, Block.Ok o c b)
    (htl : ∀ l ∈ tl, containsSub o l = false) :
    tagIteratorEvents file o c ⟨some 0, file.length, none⟩ =
      (blockEvents 0 blocks, .endOfInput) ∧
    tagIterator file o c ⟨some 0, file.length, none⟩ = blocks.map Block.text := by
  have hstops : ∀ q ∈ blockStarts 0 blocks,
      q < (⟨some 0, file.length, none⟩ : Tracker).stopPosition := by
    intro q hq
    have h1 := blockStarts_lt blocks 0 (block_first_ne_nil hs) q hq
    have h2 := clen_le_of_linesOf hs
    show q < file.length
    omega
  have hblocks := runScan_blocks o c blocks 0 (⟨some 0, file.length, none⟩ : Tracker)
    hs hok (by simp [Tracker.startD, pyOr]) (by simp) hstops
  have hK : runScan o c .seekingOpen (file.drop (clen (allLines blocks)))
      (0 + clen (allLines blocks))
      (trackAfter ⟨some 0, file.length, none⟩ 0 blocks) = ([], .endOfInput) :=
    runScan_junk_eof o c tl _ _ (linesOf_drop_clen (allLines blocks) hs) htl
  have hev : tagIteratorEvents file o c ⟨some 0, file.length, none⟩ =
      (blockEvents 0 blocks, .endOfInput) := by
    show runScan o c .seekingOpen (file.drop 0) 0 _ = _
    rw [List.drop_zero, hblocks, hK]
    simp
  refine ⟨hev, ?_⟩
  show (tagIteratorEvents file o c ⟨some 0, file.length, none⟩).1.filterMap recordText = _
  rw [hev]
  exact filterMap_recordText_blockEvents blocks 0

/-- A full run over `[0, file_length)` on a file whose lines decompose
into well-formed blocks followed by a truncated record (junk, then an
open line, then close-marker-free lines to end of input): the claimed but
unclosed trailing record is dropped, the run ends cleanly at end of
input, and the records are exactly the blocks' texts. -/
theorem tagIterator_trunc_run (file o c : List Char) (blocks : List Block)
    (junk2 : List Line) (openL : Line) (mids : List Line)
    (hs : linesOf file = allLines blocks ++ (junk2 ++ (openL :: mids)))
    (hok : ∀ b ∈ blocks, Block.Ok o c b)
    (hj : ∀ l ∈ junk2, containsSub o l = false)
    (ho : containsSub o openL = true)
    (hmc : ∀ l ∈ mids, containsSub c l = false) :
    (tagIteratorEvents file o c ⟨some 0, file.length, none⟩).2 = .endOfInput ∧
    tagIterator file o c ⟨some 0, file.length, none⟩ = blocks.map Block.text := by
  have hopenne : openL ≠ [] := by
    refine ne_nil_of_mem_linesOf (s := file) ?_
    rw [hs]
    exact List.mem_append_right _ (List.mem_append_right _ (List.mem_cons_self _ _))
  have hlen : file.length =
      clen (allLines blocks) + (clen junk2 + (openL.length + clen mids)) := by
    rw [length_eq_clen_linesOf, hs, clen_append, clen_append, clen_cons]
  have hopos : 0 < openL.length := List.length_pos.mpr hopenne
  have hstops : ∀ q ∈ blockStarts 0 blocks,
      q < (⟨some 0, file.length, none⟩ : Tracker).stopPosition := by
    intro q hq
    have h1 := blockStarts_lt blocks 0 (block_first_ne_nil hs) q hq
    show q < file.length
    omega
  have hblocks := runScan_blocks o c blocks 0 (⟨some 0, file.length, none⟩ : Tracker)
    hs hok (by simp [Tracker.startD, pyOr]) (by simp) hstops
  have hK : runScan o c .seekingOpen (file.drop (clen (allLines blocks)))
      (0 + clen (allLines blocks))
      (trackAfter ⟨some 0, file.length, none⟩ 0 blocks) =
      ([Event.claim (0 + clen (allLines blocks) + clen junk2) true], .endOfInput) := by
    refine runScan_trunc_tail o c junk2 _ _
      (linesOf_drop_clen (allLines blocks) hs) hj ho ?_ ?_ ?_ hmc
    · rw [trackAfter_startD]
      show pyOr (some 0) ≤ _
      simp [pyOr]
    · rw [trackAfter_stopPosition]
      show 0 + clen (allLines blocks) + clen junk2 < file.length
      omega
    · intro x hx
      have := trackAfter_lastClaim_le blocks ⟨some 0, file.length, none⟩ 0
        (by simp) x hx
      omega
  have hev : tagIteratorEvents file o c ⟨some 0, file.length, none⟩ =
      (blockEvents 0 blocks ++
        [Event.claim (0 + clen (allLines blocks) + clen junk2) true], .endOfInput) := by
    show runScan o c .seekingOpen (file.drop 0) 0 _ = _
    rw [List.drop_zero, hblocks, hK]
  constructor
  · rw [hev]
  · show (tagIteratorEvents file o c ⟨some 0, file.length, none⟩).1.filterMap
      recordText = _
    rw [hev]
    show (blockEvents 0 blocks ++ [Event.claim _ true]).filterMap recordText = _
    rw [List.filterMap_append, filterMap_recordText_blockEvents]
    simp [recordText]

/-! ## Claim theorems -/

/-- C1: a file whose line sequence decomposes into `N` well-formed,
non-nested tag-delimited records (open and close markers on distinct
lines, with marker-free junk between records and after the last one),
scanned by `tag_iterator` with a range tracker covering
`[0, file_length)`, yields exactly the `N` records, each equal to the
verbatim concatenation of the lines from its open-tag line through its
close-tag line inclusive, in file order. -/
theorem c1_full_file_correctness (file o c : List Char) (blocks : List Block)
    (tl : List Line)
    (hs : linesOf file = allLines blocks ++ tl)
    (hok : ∀ b ∈ blocks, Block.Ok o c b)
    (htl : ∀ l ∈ tl, containsSub o l = false) :
    tagIterator file o c ⟨some 0, file.length, none⟩ = blocks.map Block.text ∧
    (tagIterator file o c ⟨some 0, file.length, none⟩).length = blocks.length := by
  obtain ⟨-, h2⟩ := tagIterator_wf_run file o c blocks tl hs hok htl
  exact ⟨h2, by rw [h2, List.length_map]⟩

/-- Witness for C1 at a concrete file with one record. -/
theorem c1_full_file_correctness_witness :
    tagIterator ("junk\n<a>\nx\n</a>\ntail\n".toList) ("<a>".toList) ("</a>".toList)
        ⟨some 0, ("junk\n<a>\nx\n</a>\ntail\n".toList).length, none⟩ =
      ([⟨["junk\n".toList], "<a>\n".toList, ["x\n".toList], "</a>\n".toList⟩] :
        List Block).map Block.text ∧
    (tagIterator ("junk\n<a>\nx\n</a>\ntail\n".toList) ("<a>".toList) ("</a>".toList)
        ⟨some 0, ("junk\n<a>\nx\n</a>\ntail\n".toList).length, none⟩).length =
      ([⟨["junk\n".toList], "<a>\n".toList, ["x\n".toList], "</a>\n".toList⟩] :
        List Block).length :=
  c1_full_file_correctness _ _ _ _ ["tail\n".toList] (by decide) (by decide) (by decide)


/-- C3: once a `try_claim` call returns false, the iterator terminates:
the failed claim is the final event (no further record or claim), and the
stop reason is the clean claim-failure termination, not an error. -/
theorem c3_claim_failure_terminates (file o c : List Char) (t : Tracker)
    (pre : List Event) (q : Nat) (post : List Event)
    (h : (tagIteratorEvents file o c t).1 = pre ++ Event.claim q false :: post) :
    post = [] ∧ (tagIteratorEvents file o c t).2 = .claimFailed :=
  scanF_claimFalse_last o c _ _ _ _ _ pre q post h

/-- Witness for C3: a tracker narrowed to `[0,1)` fails its second claim
and stops there, with one earlier record emitted. -/
theorem c3_claim_failure_terminates_witness :
    ([] : List Event) = [] ∧
      (tagIteratorEvents ("<a>\nb\n</a>\n<a>\nc\n</a>\n".toList) ("<a>".toList)
        ("</a>".toList) ⟨some 0, 1, none⟩).2 = .claimFailed :=
  c3_claim_failure_terminates ("<a>\nb\n</a>\n<a>\nc\n</a>\n".toList) ("<a>".toList)
    ("</a>".toList) ⟨some 0, 1, none⟩
    [Event.claim 0 true, Event.emit ["<a>\n".toList, "b\n".toList, "</a>\n".toList]]
    11 [] (by decide)

/-- C6: `try_claim` is invoked only for lines containing the open-tag
marker as a plain substring, and its argument is the byte position from
immediately before that line was consumed: the line read at that very
position contains the marker (and the position is inside the file). -/
theorem c6_claim_only_on_marker_line (file o c : List Char) (t : Tracker)
    (q : Nat) (b : Bool)
    (h : Event.claim q b ∈ (tagIteratorEvents file o c t).1) :
    containsSub o (lineAt file q) = true ∧ q < file.length :=
  scanF_claim_marker file o c _ .seekingOpen (seekTargetOf t) t q b h

/-- Witness for C6 at the second claim of a concrete run. -/
theorem c6_claim_only_on_marker_line_witness :
    containsSub ("<a>".toList) (lineAt ("b\n<a>\nc\n</a>\n".toList) 2) = true ∧
      2 < ("b\n<a>\nc\n</a>\n".toList).length :=
  c6_claim_only_on_marker_line ("b\n<a>\nc\n</a>\n".toList) ("<a>".toList)
    ("</a>".toList) ⟨some 0, 13, none⟩ 2 true (by decide)

/-- C7: when no line from the seek position onward contains the open-tag
marker, the iterator reaches end of stream while seeking an open tag and
terminates cleanly: no events, no records, ordinary end-of-input. -/
theorem c7_eof_seeking_open_clean (file o c : List Char) (t : Tracker)
    (hno : ∀ l ∈ linesOf (file.drop (seekTargetOf t)), containsSub o l = false) :
    tagIteratorEvents file o c t = ([], .endOfInput) ∧
      tagIterator file o c t = [] := by
  have h := runScan_junk_eof o c (linesOf (file.drop (seekTargetOf t)))
    (seekTargetOf t) t rfl hno
  refine ⟨h, ?_⟩
  show (runScan o c .seekingOpen (file.drop (seekTargetOf t))
    (seekTargetOf t) t).1.filterMap recordText = []
  rw [h]
  rfl

/-- Witness for C7 on a file with no open tag. -/
theorem c7_eof_seeking_open_clean_witness :
    tagIteratorEvents ("hello\nworld\n".toList) ("<a>".toList) ("</a>".toList)
        ⟨none, 12, none⟩ = ([], .endOfInput) ∧
      tagIterator ("hello\nworld\n".toList) ("<a>".toList) ("</a>".toList)
        ⟨none, 12, none⟩ = [] :=
  c7_eof_seeking_open_clean ("hello\nworld\n".toList) ("<a>".toList) ("</a>".toList)
    ⟨none, 12, none⟩ (by decide)

/-- C8: `tag_iterator` seeks to `start_position() or 0`: byte 0 when
`start_position()` is `None` or `0` (both falsy), and exactly the
returned value otherwise; the scan then reads from that offset. -/
theorem c8_seek_target (t : Tracker) :
    (t.startPosition = none → seekTargetOf t = 0) ∧
    (t.startPosition = some 0 → seekTargetOf t = 0) ∧
    (∀ n, t.startPosition = some n → n ≠ 0 → seekTargetOf t = n) ∧
    (∀ file o c, tagIteratorEvents file o c t =
      runScan o c .seekingOpen (file.drop (seekTargetOf t)) (seekTargetOf t) t) := by
  refine ⟨?_, ?_, ?_, fun _ _ _ => rfl⟩
  · intro h
    simp [seekTargetOf, pyOr, h]
  · intro h
    simp [seekTargetOf, pyOr, h]
  · intro n h hn
    simp [seekTargetOf, pyOr, h, hn]

/-- Witness for C8 at concrete trackers. -/
theorem c8_seek_target_witness :
    seekTargetOf ⟨some 5, 10, none⟩ = 5 ∧ seekTargetOf ⟨some 0, 10, none⟩ = 0 ∧
      seekTargetOf ⟨none, 10, none⟩ = 0 :=
  ⟨(c8_seek_target ⟨some 5, 10, none⟩).2.2.1 5 rfl (by decide),
   (c8_seek_target ⟨some 0, 10, none⟩).2.1 rfl,
   (c8_seek_target ⟨none, 10, none⟩).1 rfl⟩

/-- C10: the byte positions passed to successive `try_claim` calls within
one run are strictly increasing (so, in particular, each emitted record's
claimed start offset exceeds the previous one's). -/
theorem c10_claim_positions_strictly_increasing (file o c : List Char) (t : Tracker) :
    List.Pairwise (fun a b => a < b) (claimsOf (tagIteratorEvents file o c t).1) :=
  (scanF_claims_mono o c _ .seekingOpen _ (seekTargetOf t) t).2


/-- C9: every record `tag_iterator` emits is the concatenation of
consecutive input lines; its first line contains the open marker, its
last line contains the close marker, and no strictly interior line
contains the close marker. -/
theorem c9_record_structure (file o c : List Char) (t : Tracker) (x : List Char)
    (hx : x ∈ tagIterator file o c t) :
    ∃ r : List Line, x = r.flatten ∧ RecordShape o c r ∧
      ∃ q tl, linesOf (file.drop q) = r ++ tl := by
  obtain ⟨e, he, hrec⟩ := List.mem_filterMap.mp hx
  cases e with
  | claim _ _ => simp [recordText] at hrec
  | emit r =>
    simp only [recordText, Option.some.injEq] at hrec
    obtain ⟨hshape, hcons⟩ := scanF_emit_shape file o c _ .seekingOpen (seekTargetOf t) t
      (by simp [ModeOk]) r he
    exact ⟨r, hrec.symm, hshape, hcons⟩

/-- Witness for C9 on a one-record file. -/
theorem c9_record_structure_witness :
    ∃ r : List Line, "<a>\nx\n</a>\n".toList = r.flatten ∧
      RecordShape ("<a>".toList) ("</a>".toList) r ∧
      ∃ q tl, linesOf (("<a>\nx\n</a>\n".toList).drop q) = r ++ tl :=
  c9_record_structure ("<a>\nx\n</a>\n".toList) ("<a>".toList) ("</a>".toList)
    ⟨some 0, 11, none⟩ ("<a>\nx\n</a>\n".toList) (by decide)

/-- C4: when the line just claimed contains both the open and the close
marker, the scanner does not emit that line alone as a record: the close
marker on the open line is never examined, so the record continues with
subsequent lines and is emitted only once a later line contains the close
marker (with the record extending strictly beyond the open line), or the
scan terminates at end of input without emitting it. -/
theorem c4_same_line_close_not_emitted (o c : List Char) {s : List Char} (p : Nat)
    (t : Tracker) (hne : s ≠ [])
    (hboth : containsSub o (takeLine s) = true ∧ containsSub c (takeLine s) = true)
    (hcl : (t.tryClaim p).1 = true) :
    (∀ (pre : List Line) (cl : Line) (after : List Line),
      linesOf (s.drop (takeLine s).length) = pre ++ (cl :: after) →
      (∀ x ∈ pre, containsSub c x = false) →
      containsSub c cl = true →
      (runScan o c .seekingOpen s p t).1.take 2 =
        [Event.claim p true, Event.emit (takeLine s :: (pre ++ [cl]))] ∧
      2 ≤ (takeLine s :: (pre ++ [cl])).length) ∧
    ((∀ x ∈ linesOf (s.drop (takeLine s).length), containsSub c x = false) →
      runScan o c .seekingOpen s p t = ([Event.claim p true], .endOfInput)) := by
  constructor
  · intro pre cl after hdec hpre hclm
    rw [runScan_open_claimT o c hne p t hboth.1 hcl]
    rw [runScan_close_run o c pre (p + (takeLine s).length) [takeLine s]
      (t.tryClaim p).2 hdec hpre hclm]
    constructor
    · simp
    · simp
  · intro hnone
    rw [runScan_open_claimT o c hne p t hboth.1 hcl]
    rw [runScan_close_eof o c (linesOf (s.drop (takeLine s).length))
      (p + (takeLine s).length) [takeLine s] (t.tryClaim p).2 rfl hnone]

/-- Witness for C4: a record whose open line also contains the close
marker closes only on the later close line; and with no later close line
it is dropped at end of input. -/
theorem c4_same_line_close_not_emitted_witness :
    ((runScan ("<a>".toList) ("</a>".toList) .seekingOpen
        ("<a></a>\nq\n</a>\n".toList) 0 ⟨some 0, 15, none⟩).1.take 2 =
      [Event.claim 0 true,
       Event.emit ["<a></a>\n".toList, "q\n".toList, "</a>\n".toList]] ∧
     2 ≤ (["<a></a>\n".toList, "q\n".toList, "</a>\n".toList] : List Line).length) ∧
    runScan ("<a>".toList) ("</a>".toList) .seekingOpen
        ("<a></a>\nq\n".toList) 0 ⟨some 0, 10, none⟩ =
      ([Event.claim 0 true], .endOfInput) := by
  constructor
  · have h := (c4_same_line_close_not_emitted ("<a>".toList) ("</a>".toList)
      (s := "<a></a>\nq\n</a>\n".toList) 0 ⟨some 0, 15, none⟩ (by decide)
      ⟨by decide, by decide⟩ (by decide)).1 ["q\n".toList] ("</a>\n".toList) []
      (by decide) (by decide) (by decide)
    exact h
  · exact (c4_same_line_close_not_emitted ("<a>".toList) ("</a>".toList)
      (s := "<a></a>\nq\n".toList) 0 ⟨some 0, 10, none⟩ (by decide)
      ⟨by decide, by decide⟩ (by decide)).2 (by decide)


/-- C5: a file that ends after a claimed open-tag line with no later
close-marker line terminates cleanly at end of input without emitting the
partial record, and yields exactly one fewer record than the well-formed
version of the same file (the same file with a close line appended). -/
theorem c5_truncation_drop (file file2 o c : List Char) (blocks : List Block)
    (junk2 : List Line) (openL : Line) (mids : List Line) (closeL : Line)
    (hs : linesOf file = allLines blocks ++ (junk2 ++ (openL :: mids)))
    (hs2 : linesOf file2 = allLines blocks ++ (junk2 ++ (openL :: (mids ++ [closeL]))))
    (hok : ∀ b ∈ blocks, Block.Ok o c b)
    (hj : ∀ l ∈ junk2, containsSub o l = false)
    (ho : containsSub o openL = true) (hoc : containsSub c openL = false)
    (hm : ∀ l ∈ mids, containsSub o l = false ∧ containsSub c l = false)
    (hcl : containsSub c closeL = true) (hco : containsSub o closeL = false) :
    file2 = file ++ closeL ∧
    (tagIteratorEvents file o c ⟨some 0, file.length, none⟩).2 = .endOfInput ∧
    tagIterator file o c ⟨some 0, file.length, none⟩ = blocks.map Block.text ∧
    tagIterator file2 o c ⟨some 0, file2.length, none⟩ =
      blocks.map Block.text ++ [(openL :: (mids ++ [closeL])).flatten] ∧
    (tagIterator file2 o c ⟨some 0, file2.length, none⟩).length =
      (tagIterator file o c ⟨some 0, file.length, none⟩).length + 1 := by
  have hfile2 : file2 = file ++ closeL := by
    have e1 : file = (allLines blocks ++ (junk2 ++ (openL :: mids))).flatten := by
      rw [← hs, flatten_linesOf]
    have e2 : file2 =
        (allLines blocks ++ (junk2 ++ (openL :: (mids ++ [closeL])))).flatten := by
      rw [← hs2, flatten_linesOf]
    rw [e1, e2]
    simp
  obtain ⟨hreason, hrec⟩ := tagIterator_trunc_run file o c blocks junk2 openL mids
    hs hok hj ho (fun l hl => (hm l hl).2)
  have hs2' : linesOf file2 =
      allLines (blocks ++ [⟨junk2, openL, mids, closeL⟩]) ++ [] := by
    rw [hs2, allLines_append, List.append_nil]
    have : allLines [(⟨junk2, openL, mids, closeL⟩ : Block)] =
        junk2 ++ (openL :: (mids ++ [closeL])) := by
      simp [allLines, Block.lines]
    rw [this]
  have hok2 : ∀ b ∈ blocks ++ [(⟨junk2, openL, mids, closeL⟩ : Block)],
      Block.Ok o c b := by
    intro b hb
    rcases List.mem_append.mp hb with hb | hb
    · exact hok b hb
    · rw [List.mem_singleton.mp hb]
      exact ⟨hj, ho, hoc, hm, hcl, hco⟩
  obtain ⟨-, hrec2⟩ := tagIterator_wf_run file2 o c
    (blocks ++ [⟨junk2, openL, mids, closeL⟩]) [] hs2' hok2 (by simp)
  have hrec2' : tagIterator file2 o c ⟨some 0, file2.length, none⟩ =
      blocks.map Block.text ++ [(openL :: (mids ++ [closeL])).flatten] := by
    rw [hrec2, List.map_append]
    rfl
  refine ⟨hfile2, hreason, hrec, hrec2', ?_⟩
  rw [hrec, hrec2']
  simp

/-- Witness for C5: truncated file `<a>\nx\n` drops its record; the
well-formed `<a>\nx\n</a>\n` yields it. -/
theorem c5_truncation_drop_witness :
    "<a>\nx\n</a>\n".toList = "<a>\nx\n".toList ++ "</a>\n".toList ∧
    (tagIteratorEvents ("<a>\nx\n".toList) ("<a>".toList) ("</a>".toList)
      ⟨some 0, ("<a>\nx\n".toList).length, none⟩).2 = .endOfInput ∧
    tagIterator ("<a>\nx\n".toList) ("<a>".toList) ("</a>".toList)
      ⟨some 0, ("<a>\nx\n".toList).length, none⟩ = ([] : List Block).map Block.text ∧
    tagIterator ("<a>\nx\n</a>\n".toList) ("<a>".toList) ("</a>".toList)
      ⟨some 0, ("<a>\nx\n</a>\n".toList).length, none⟩ =
      ([] : List Block).map Block.text ++
        [(("<a>\n".toList) :: (["x\n".toList] ++ ["</a>\n".toList])).flatten] ∧
    (tagIterator ("<a>\nx\n</a>\n".toList) ("<a>".toList) ("</a>".toList)
      ⟨some 0, ("<a>\nx\n</a>\n".toList).length, none⟩).length =
      (tagIterator ("<a>\nx\n".toList) ("<a>".toList) ("</a>".toList)
        ⟨some 0, ("<a>\nx\n".toList).length, none⟩).length + 1 :=
  c5_truncation_drop ("<a>\nx\n".toList) ("<a>\nx\n</a>\n".toList) ("<a>".toList)
    ("</a>".toList) [] [] ("<a>\n".toList) ["x\n".toList] ("</a>\n".toList)
    (by decide) (by decide) (by decide) (by decide) (by decide) (by decide)
    (by decide) (by decide) (by decide)


/-- C2 counterexample: for the well-formed single-record file
`x<a>\nb\n</a>\n` and split point `k = 1` — which falls mid-line, inside
the open-tag line — the ranges `[0,1)` and `[1,12)` together emit two
records: the worker for `[1,12)` reads the partial line from byte 1,
still sees the open marker, claims byte 1 and re-emits the record with a
truncated first line.  The concatenated output is therefore not the
single-run record multiset, refuting the claim for arbitrary split
points. -/
theorem c2_split_counterexample :
    (linesOf ("x<a>\nb\n</a>\n".toList) =
        allLines [⟨[], "x<a>\n".toList, ["b\n".toList], "</a>\n".toList⟩] ++ [] ∧
      Block.Ok ("<a>".toList) ("</a>".toList)
        ⟨[], "x<a>\n".toList, ["b\n".toList], "</a>\n".toList⟩ ∧
      ("x<a>\nb\n</a>\n".toList).length = 12) ∧
    tagIterator ("x<a>\nb\n</a>\n".toList) ("<a>".toList) ("</a>".toList)
        ⟨some 0, 12, none⟩ = ["x<a>\nb\n</a>\n".toList] ∧
    tagIterator ("x<a>\nb\n</a>\n".toList) ("<a>".toList) ("</a>".toList)
        ⟨some 0, 1, none⟩ ++
      tagIterator ("x<a>\nb\n</a>\n".toList) ("<a>".toList) ("</a>".toList)
        ⟨some 1, 12, none⟩ =
      ["x<a>\nb\n</a>\n".toList, "<a>\nb\n</a>\n".toList] ∧
    (↑(tagIterator ("x<a>\nb\n</a>\n".toList) ("<a>".toList) ("</a>".toList)
        ⟨some 0, 1, none⟩ ++
      tagIterator ("x<a>\nb\n</a>\n".toList) ("<a>".toList) ("</a>".toList)
        ⟨some 1, 12, none⟩) : Multiset (List Char)) ≠
      (↑(tagIterator ("x<a>\nb\n</a>\n".toList) ("<a>".toList) ("</a>".toList)
        ⟨some 0, 12, none⟩) : Multiset (List Char)) := by
  decide

/-! ## Helper lemmas for the amended range-splitting theorem -/

theorem pyOr_some (n : Nat) : pyOr (some n) = n := by
  show (if n = 0 then 0 else n) = n
  by_cases h : n = 0
  · simp [h]
  · simp [h]

theorem allLines_singleton (b : Block) : allLines [b] = b.lines := by
  simp [allLines]

theorem trackAfter_singleton (t : Tracker) (p : Nat) (b : Block) :
    trackAfter t p [b] = { t with lastClaim := some (p + clen b.junk) } := rfl

theorem block_text_junk_irrel (b : Block) (j : List Line) :
    Block.text { b with junk := j } = b.text := rfl

theorem drop_drop_add (u : List Char) (a b : Nat) :
    (u.drop a).drop b = u.drop (a + b) := by
  rw [List.drop_drop]

/-- A full run from a byte offset `k` on the suffix of the file whose
lines decompose into well-formed blocks and trailing junk. -/
theorem records_full_from (o c : List Char) (file : List Char) (k : Nat)
    (blocks : List Block) (tl : List Line)
    (hk : k ≤ file.length)
    (hs : linesOf (file.drop k) = allLines blocks ++ tl)
    (hok : ∀ b ∈ blocks, Block.Ok o c b)
    (htl : ∀ l ∈ tl, containsSub o l = false) :
    (runScan o c .seekingOpen (file.drop k) k
      ⟨some k, file.length, none⟩).1.filterMap recordText = blocks.map Block.text := by
  have hstops : ∀ q ∈ blockStarts k blocks,
      q < (⟨some k, file.length, none⟩ : Tracker).stopPosition := by
    intro q hq
    have h1 := blockStarts_lt blocks k (block_first_ne_nil hs) q hq
    have h2 := clen_le_of_linesOf hs
    have h3 : (file.drop k).length = file.length - k := by simp
    show q < file.length
    omega
  have hstart : (⟨some k, file.length, none⟩ : Tracker).startD ≤ k := by
    show Tracker.startD _ ≤ k
    rw [Tracker.startD]
    rw [pyOr_some]
  have hblocks := runScan_blocks o c blocks k (⟨some k, file.length, none⟩ : Tracker)
    hs hok hstart (by simp) hstops
  have hK : runScan o c .seekingOpen ((file.drop k).drop (clen (allLines blocks)))
      (k + clen (allLines blocks))
      (trackAfter ⟨some k, file.length, none⟩ k blocks) = ([], .endOfInput) :=
    runScan_junk_eof o c tl _ _ (linesOf_drop_clen (allLines blocks) hs) htl
  rw [hblocks, hK]
  simp only [List.append_nil, List.filterMap_append]
  rw [filterMap_recordText_blockEvents]

/-- A worker whose range already ended at or before the current position
emits nothing further over well-formed blocks and junk. -/
theorem records_stop_after (o c : List Char) (file : List Char) (p : Nat) (t : Tracker)
    (bs : List Block) (tl : List Line)
    (hstop : t.stopPosition ≤ p)
    (hs : linesOf (file.drop p) = allLines bs ++ tl)
    (hok : ∀ b ∈ bs, Block.Ok o c b)
    (htl : ∀ l ∈ tl, containsSub o l = false) :
    (runScan o c .seekingOpen (file.drop p) p t).1.filterMap recordText = [] := by
  cases bs with
  | nil =>
    rw [runScan_junk_eof o c tl p t (by simpa [allLines_nil] using hs) htl]
    rfl
  | cons b2 rest =>
    obtain ⟨hj2, hof2, -, -, -, -⟩ := hok b2 (by simp)
    have hs' : linesOf (file.drop p) =
        b2.junk ++ (b2.first :: (b2.mid ++ (b2.lastLine :: (allLines rest ++ tl)))) := by
      rw [hs, allLines_cons, Block.lines]
      simp
    rw [runScan_fail_head o c b2.junk p t hs' hj2 hof2
      (le_trans hstop (Nat.le_add_right _ _))]
    rfl


/-- Range-splitting: the records of a worker whose range stops at a line
boundary `k`, followed by the records of the worker covering
`[k, file_length)`, are exactly the blocks' records in order. -/
theorem split_records (o c : List Char) (file : List Char) (k : Nat) :
    ∀ (blocks : List Block) (tl : List Line) (p : Nat) (t : Tracker)
      (L₁ L₂ : List Line),
      p ≤ file.length →
      linesOf (file.drop p) = allLines blocks ++ tl →
      (∀ b ∈ blocks, Block.Ok o c b) →
      (∀ l ∈ tl, containsSub o l = false) →
      allLines blocks ++ tl = L₁ ++ L₂ →
      k = p + clen L₁ →
      t.stopPosition = k →
      t.startD ≤ p →
      (∀ x ∈ t.lastClaim, x ≤ p) →
      (runScan o c .seekingOpen (file.drop p) p t).1.filterMap recordText ++
        (runScan o c .seekingOpen (file.drop k) k
          ⟨some k, file.length, none⟩).1.filterMap recordText =
      blocks.map Block.text := by
  intro blocks
  induction blocks with
  | nil =>
    intro tl p t L₁ L₂ hple hs hok htl hsplit hk hstop hstart hlast
    rw [allLines_nil, List.nil_append] at hs hsplit
    have hW1 := runScan_junk_eof o c tl p t hs htl
    have hsk : linesOf (file.drop k) = L₂ := by
      have h0 := linesOf_drop_clen L₁ (hs.trans hsplit)
      rwa [drop_drop_add, ← hk] at h0
    have hW2 := runScan_junk_eof o c L₂ k (⟨some k, file.length, none⟩ : Tracker) hsk
      (fun l hl => htl l (by rw [hsplit]; exact List.mem_append_right _ hl))
    rw [hW1, hW2]
    rfl
  | cons b bs ih =>
    intro tl p t L₁ L₂ hple hs hok htl hsplit hk hstop hstart hlast
    obtain ⟨hj, hof, hcf, hmids, hclb, holb⟩ := hok b (by simp)
    have hokb : Block.Ok o c b := ⟨hj, hof, hcf, hmids, hclb, holb⟩
    have hfe : b.first ≠ [] := block_first_ne_nil hs b (by simp)
    have hfpos : 0 < b.first.length := List.length_pos.mpr hfe
    have hALb : allLines [b] = b.lines := allLines_singleton b
    have hclen_total : clen (allLines (b :: bs) ++ tl) = file.length - p := by
      rw [← hs, ← length_eq_clen_linesOf]
      simp
    have hkle : k ≤ file.length := by
      have h1 : clen L₁ + clen L₂ = file.length - p := by
        rw [← clen_append, ← hsplit, hclen_total]
      omega
    have hsAL : linesOf (file.drop p) = b.lines ++ (allLines bs ++ tl) := by
      rw [hs, allLines_cons, List.append_assoc]
    rw [allLines_cons, List.append_assoc] at hsplit
    have hsbs : linesOf (file.drop (p + clen b.lines)) = allLines bs ++ tl := by
      have h0 := linesOf_drop_clen b.lines hsAL
      rwa [drop_drop_add] at h0
    have hblk : clen (allLines (b :: bs)) + clen tl = file.length - p := by
      rw [← clen_append, hclen_total]
    have hlines_le : clen b.lines ≤ file.length - p := by
      rw [allLines_cons, clen_append] at hblk
      omega
    rcases List.append_eq_append_iff.mp hsplit with ⟨w, hw1, hw2⟩ | ⟨w, hw1, hw2⟩
    · -- the cut lies at or past the end of block b: recurse
      have hclenL₁ : clen L₁ = clen b.lines + clen w := by
        rw [hw1, clen_append]
      have hjlt : clen b.junk < clen b.lines := by
        rw [clen_block_lines]
        omega
      have hsW1 : linesOf (file.drop p) = allLines [b] ++ (allLines bs ++ tl) := by
        rw [hsAL, hALb]
      have hstops1 : ∀ q ∈ blockStarts p [b], q < t.stopPosition := by
        intro q hq
        simp only [blockStarts, List.mem_singleton] at hq
        subst hq
        rw [hstop, hk]
        omega
      have hb1 := runScan_blocks o c [b] p t hsW1
        (fun b' hb' => by rw [List.mem_singleton.mp hb']; exact hokb)
        hstart hlast hstops1
      rw [hALb, drop_drop_add, trackAfter_singleton] at hb1
      have hW1rec : (runScan o c .seekingOpen (file.drop p) p t).1.filterMap
          recordText =
          b.text :: (runScan o c .seekingOpen (file.drop (p + clen b.lines))
            (p + clen b.lines)
            { t with lastClaim := some (p + clen b.junk) }).1.filterMap recordText := by
        rw [hb1]
        rw [List.filterMap_append, filterMap_recordText_blockEvents]
        rfl
      have hih := ih tl (p + clen b.lines)
        { t with lastClaim := some (p + clen b.junk) } w L₂
        (by omega) hsbs (fun b' hb' => hok b' (by simp [hb'])) htl hw2
        (by rw [hk, hclenL₁]; omega)
        (by show t.stopPosition = k; exact hstop)
        (le_trans hstart (Nat.le_add_right _ _))
        (by
          intro x hx
          simp only [Option.mem_def, Option.some.injEq] at hx
          omega)
      rw [hW1rec, List.cons_append, hih]
      rfl
    · -- the cut lies inside block b: terminal analysis
      have hsplitFull : linesOf (file.drop p) = L₁ ++ L₂ := by
        rw [hsAL, hsplit]
      have hsk : linesOf (file.drop k) = L₂ := by
        have h0 := linesOf_drop_clen L₁ hsplitFull
        rwa [drop_drop_add, ← hk] at h0
      have hlines_eq : b.junk ++ (b.first :: (b.mid ++ [b.lastLine])) = L₁ ++ w := by
        rw [← hw1]
        rfl
      have hsfail : linesOf (file.drop p) =
          b.junk ++ (b.first :: (b.mid ++ (b.lastLine :: (allLines bs ++ tl)))) := by
        rw [hsAL, Block.lines]
        simp
      rcases List.append_eq_append_iff.mp hlines_eq with ⟨z, hz1, hz2⟩ | ⟨z, hz1, hz2⟩
      · cases z with
        | nil =>
          -- cut exactly at the open-tag line: worker 1 claim fails there
          rw [List.append_nil] at hz1
          rw [List.nil_append] at hz2
          have hczl : clen L₁ = clen b.junk := by rw [hz1]
          have hW1 := runScan_fail_head o c b.junk p t hsfail hj hof
            (by rw [hstop, hk]; omega)
          have hW2s : linesOf (file.drop k) =
              allLines ({ b with junk := [] } :: bs) ++ tl := by
            rw [hsk, hw2, ← hz2]
            simp [allLines_cons, Block.lines, List.append_assoc]
          have hok2 : ∀ b' ∈ { b with junk := [] } :: bs, Block.Ok o c b' := by
            intro b' hb'
            rcases List.mem_cons.mp hb' with rfl | hb'
            · exact ⟨by simp, hof, hcf, hmids, hclb, holb⟩
            · exact hok b' (by simp [hb'])
          have hW2 := records_full_from o c file k ({ b with junk := [] } :: bs) tl
            hkle hW2s hok2 htl
          rw [hW1, hW2]
          rfl
        | cons z0 z' =>
          -- cut strictly inside the record of b: worker 1 finishes b, then stops
          obtain ⟨hz0, hmidlast⟩ := List.cons.injEq _ _ _ _ ▸ hz2
          have hczL₁ : clen L₁ = clen b.junk + (b.first.length + clen z') := by
            rw [hz1, clen_append, clen_cons, ← hz0]
          have hczml : clen b.mid + b.lastLine.length = clen z' + clen w := by
            have h9 := congrArg clen hmidlast
            simp only [List.append_eq, clen_append, clen_cons, clen_nil] at h9
            omega
          have hsW1 : linesOf (file.drop p) = allLines [b] ++ (allLines bs ++ tl) := by
            rw [hsAL, hALb]
          have hstops1 : ∀ q ∈ blockStarts p [b], q < t.stopPosition := by
            intro q hq
            simp only [blockStarts, List.mem_singleton] at hq
            subst hq
            rw [hstop, hk]
            omega
          have hb1 := runScan_blocks o c [b] p t hsW1
            (fun b' hb' => by rw [List.mem_singleton.mp hb']; exact hokb)
            hstart hlast hstops1
          rw [hALb, drop_drop_add, trackAfter_singleton] at hb1
          have hKnil := records_stop_after o c file (p + clen b.lines)
            { t with lastClaim := some (p + clen b.junk) } bs tl
            (by
              show t.stopPosition ≤ _
              rw [hstop, hk, hczL₁, clen_block_lines]
              omega)
            hsbs (fun b' hb' => hok b' (by simp [hb'])) htl
          have hW1rec : (runScan o c .seekingOpen (file.drop p) p t).1.filterMap
              recordText = [b.text] := by
            rw [hb1]
            rw [List.filterMap_append, filterMap_recordText_blockEvents, hKnil]
            rfl
          have hwno : ∀ l ∈ w, containsSub o l = false := by
            intro l hl
            have hmem : l ∈ b.mid ++ [b.lastLine] := by
              rw [hmidlast]
              exact List.mem_append_right _ hl
            rcases List.mem_append.mp hmem with hm | hm
            · exact (hmids l hm).1
            · rw [List.mem_singleton.mp hm]
              exact holb
          cases bs with
          | nil =>
            have hsk' : linesOf (file.drop k) = w ++ tl := by
              rw [hsk, hw2, allLines_nil, List.nil_append]
            have hW2 := runScan_junk_eof o c (w ++ tl) k
              (⟨some k, file.length, none⟩ : Tracker) hsk'
              (by
                intro l hl
                rcases List.mem_append.mp hl with hm | hm
                · exact hwno l hm
                · exact htl l hm)
            rw [hW1rec, hW2]
            rfl
          | cons b2 rest =>
            obtain ⟨hj2, hof2, hcf2, hmids2, hclb2, holb2⟩ := hok b2 (by simp)
            have hW2s : linesOf (file.drop k) =
                allLines ({ b2 with junk := w ++ b2.junk } :: rest) ++ tl := by
              rw [hsk, hw2]
              simp [allLines_cons, Block.lines, List.append_assoc]
            have hok2 : ∀ b' ∈ { b2 with junk := w ++ b2.junk } :: rest,
                Block.Ok o c b' := by
              intro b' hb'
              rcases List.mem_cons.mp hb' with rfl | hb'
              · refine ⟨?_, hof2, hcf2, hmids2, hclb2, holb2⟩
                intro l hl
                rcases List.mem_append.mp hl with hm | hm
                · exact hwno l hm
                · exact hj2 l hm
              · exact hok b' (by simp [hb'])
            have hW2 := records_full_from o c file k
              ({ b2 with junk := w ++ b2.junk } :: rest) tl hkle hW2s hok2 htl
            rw [hW1rec, hW2]
            rfl
      · -- cut inside the junk before b: worker 1 claim fails at b's start
        have hczj : clen b.junk = clen L₁ + clen z := by
          rw [hz1, clen_append]
        have hW1 := runScan_fail_head o c b.junk p t hsfail hj hof
          (by rw [hstop, hk]; omega)
        have hW2s : linesOf (file.drop k) =
            allLines ({ b with junk := z } :: bs) ++ tl := by
          rw [hsk, hw2, hz2]
          simp [allLines_cons, Block.lines, List.append_assoc]
        have hok2 : ∀ b' ∈ { b with junk := z } :: bs, Block.Ok o c b' := by
          intro b' hb'
          rcases List.mem_cons.mp hb' with rfl | hb'
          · refine ⟨?_, hof, hcf, hmids, hclb, holb⟩
            intro l hl
            exact hj l (by rw [hz1]; exact List.mem_append_right _ hl)
          · exact hok b' (by simp [hb'])
        have hW2 := records_full_from o c file k ({ b with junk := z } :: bs) tl
          hkle hW2s hok2 htl
        rw [hW1, hW2]
        rfl


/-- C2 amended: for a well-formed file and every split point `k` that
falls on a line boundary, partitioning `[0, file_length)` into `[0,k)`
and `[k, file_length)` with independent trackers and concatenating the
outputs in range order yields exactly the single-range record sequence —
no record duplicated or omitted, including a record that starts before
`k` whose continuation lines lie at or past `k` (the claiming worker
reads past its own stop position to finish it). -/
theorem c2_split_equivalence_line_boundary (file o c : List Char)
    (blocks : List Block) (tl : List Line) (L₁ L₂ : List Line) (k : Nat)
    (hs : linesOf file = allLines blocks ++ tl)
    (hok : ∀ b ∈ blocks, Block.Ok o c b)
    (htl : ∀ l ∈ tl, containsSub o l = false)
    (hsplit : linesOf file = L₁ ++ L₂)
    (hk : k = clen L₁) :
    tagIterator file o c ⟨some 0, k, none⟩ ++
      tagIterator file o c ⟨some k, file.length, none⟩ =
    tagIterator file o c ⟨some 0, file.length, none⟩ := by
  obtain ⟨-, hfull⟩ := tagIterator_wf_run file o c blocks tl hs hok htl
  rw [hfull]
  have h0 : linesOf (file.drop 0) = allLines blocks ++ tl := by
    rwa [List.drop_zero]
  have hmain := split_records o c file k blocks tl 0 ⟨some 0, k, none⟩ L₁ L₂
    (Nat.zero_le _) h0 hok htl (hs.symm.trans hsplit) (by omega)
    rfl (by simp [Tracker.startD, pyOr]) (by simp)
  have e2 : tagIterator file o c ⟨some k, file.length, none⟩ =
      (runScan o c .seekingOpen (file.drop k) k
        ⟨some k, file.length, none⟩).1.filterMap recordText := by
    show (runScan o c .seekingOpen (file.drop (pyOr (some k))) (pyOr (some k))
      ⟨some k, file.length, none⟩).1.filterMap recordText = _
    rw [pyOr_some]
  have e1 : tagIterator file o c ⟨some 0, k, none⟩ =
      (runScan o c .seekingOpen (file.drop 0) 0
        ⟨some 0, k, none⟩).1.filterMap recordText := rfl
  rw [e1, e2]
  exact hmain

/-- Witness for the amended C2: splitting `<a>\na\n</a>\n<a>\nb\n</a>\n`
at the line boundary `k = 6` (inside the first record, before its close
line). -/
theorem c2_split_equivalence_line_boundary_witness :
    tagIterator ("<a>\na\n</a>\n<a>\nb\n</a>\n".toList) ("<a>".toList)
        ("</a>".toList) ⟨some 0, 6, none⟩ ++
      tagIterator ("<a>\na\n</a>\n<a>\nb\n</a>\n".toList) ("<a>".toList)
        ("</a>".toList)
        ⟨some 6, ("<a>\na\n</a>\n<a>\nb\n</a>\n".toList).length, none⟩ =
    tagIterator ("<a>\na\n</a>\n<a>\nb\n</a>\n".toList) ("<a>".toList)
        ("</a>".toList)
        ⟨some 0, ("<a>\na\n</a>\n<a>\nb\n</a>\n".toList).length, none⟩ :=
  c2_split_equivalence_line_boundary ("<a>\na\n</a>\n<a>\nb\n</a>\n".toList)
    ("<a>".toList) ("</a>".toList)
    [⟨[], "<a>\n".toList, ["a\n".toList], "</a>\n".toList⟩,
     ⟨[], "<a>\n".toList, ["b\n".toList], "</a>\n".toList⟩] []
    ["<a>\n".toList, "a\n".toList]
    ["</a>\n".toList, "<a>\n".toList, "b\n".toList, "</a>\n".toList] 6
    (by decide) (by decide) (by decide) (by decide) (by decide)

end XmlSrc
